import Mathlib

/-!
Verification of `src/utils/blockchain_evidence.py` (class
`BlockchainEvidenceLedger`): a shallow embedding of the evidence-ledger
blockchain and proofs about its hashing, chain verification and report
generation.

Modelling conventions:
* Python dictionaries holding JSON data are modelled by the mutual
  inductive family `JVal` / `JArr` / `JObj` (JSON values, arrays and
  objects; an object keeps its insertion order, as Python dicts do).
* Python strings are Lean `String`s; serialized byte strings are
  `List Char`.
* `json.dumps(x, sort_keys=True)` is modelled by `dumps`: keys are
  sorted (by code point, as Python compares strings) at every nesting
  level and the result is rendered with the default separators
  (", " and ": ") and the default string escaping restricted to the
  two characters `"` and `\` (Python additionally escapes control and
  non-ASCII characters; none of the repository's data contains them).
* `hashlib.sha256(...).hexdigest()` is modelled as a collision-free
  function by identifying a digest with the serialized string it was
  computed from (`sha256hex` is the identity).  Under this model two
  digests are equal exactly when the hashed strings are equal.
* Each call of `datetime.datetime.now().isoformat()` is an input of the
  model: functions that draw timestamps take them as extra `String`
  arguments, in the order the Python code draws them.
* Python `str(i)` for a nonnegative int is `natToDec` (decimal digits).
-/

/- JSON values as stored in Python dicts: null, strings, arrays and
objects.  `JArr` and `JObj` are inline list types so that all recursions
below are structural (numbers and booleans never occur in the ledger's
data and are omitted). -/
mutual

inductive JVal where
  | null : JVal
  | str : String → JVal
  | arr : JArr → JVal
  | obj : JObj → JVal
deriving DecidableEq

inductive JArr where
  | nil : JArr
  | cons : JVal → JArr → JArr
deriving DecidableEq

inductive JObj where
  | nil : JObj
  | cons : String → JVal → JObj → JObj
deriving DecidableEq

end

/-- Build an object from a list of key/value pairs (in insertion order). -/
def JObj.ofList : List (String × JVal) → JObj
  | [] => .nil
  | (k, v) :: t => .cons k v (JObj.ofList t)

/-- The key/value pairs of an object, in insertion order. -/
def JObj.toList : JObj → List (String × JVal)
  | .nil => []
  | .cons k v t => (k, v) :: t.toList

/-- The keys of an object, in insertion order. -/
def JObj.keys (o : JObj) : List String := o.toList.map Prod.fst

/-- First value stored under key `k` (Python dicts have unique keys, so
first = only). -/
def JObj.lookup (k : String) : JObj → Option JVal
  | .nil => none
  | .cons k2 v t => if k = k2 then some v else JObj.lookup k t

/-- Python `d.get(k, dflt)`. -/
def pyGet (o : JObj) (k : String) (dflt : JVal) : JVal :=
  (o.lookup k).getD dflt

/-- Python `d.get(k)` (default `None`). -/
def pyGetNone (o : JObj) (k : String) : JVal := pyGet o k .null

/-- Python `d[k]`.  On the ledger's reachable data the key is always
present; a missing key (a `KeyError` in Python) is modelled as `null`. -/
def pyItem (o : JObj) (k : String) : JVal := pyGet o k .null

/-- Python `k in d`. -/
def JObj.hasKey (o : JObj) (k : String) : Bool := (o.lookup k).isSome

/-- Lexicographic comparison of strings by code point, as Python `<=`
compares `str` values (used by `sorted` on dict keys). -/
def lexLe : List Char → List Char → Bool
  | [], _ => true
  | _ :: _, [] => false
  | a :: s, b :: t =>
      if a.toNat < b.toNat then true
      else if b.toNat < a.toNat then false
      else lexLe s t

/-- Insert a key/value pair into a key-sorted object, keeping it sorted. -/
def JObj.insertKey (k : String) (v : JVal) : JObj → JObj
  | .nil => .cons k v .nil
  | .cons k2 v2 t =>
      if lexLe k.data k2.data then .cons k v (.cons k2 v2 t)
      else .cons k2 v2 (JObj.insertKey k v t)

/-- Sort an object by its keys (insertion sort; Python `sort_keys=True`
sorts the keys of every object while serializing). -/
def JObj.sortKeys : JObj → JObj
  | .nil => .nil
  | .cons k v t => JObj.insertKey k v (JObj.sortKeys t)

/-- JSON string escaping as `json.dumps` applies it to the characters
that occur in the ledger's data: `"` and `\` get a backslash, all other
characters are copied. -/
def escapeStr : List Char → List Char
  | [] => []
  | c :: t => (if c = '"' ∨ c = '\\' then ['\\', c] else [c]) ++ escapeStr t

/-- Serialization of one object entry: `"key": value`. -/
def serEntry (k : String) (sv : List Char) : List Char :=
  '"' :: (escapeStr k.data ++ '"' :: ':' :: ' ' :: sv)

/- JSON serialization with the default separators `", "` and `": "`,
exactly as `json.dumps` renders a value (objects are rendered in their
stored order; `dumps` below sorts first).  `serItems`/`serEntries` are
the comma-joined member lists, `serTail`/`serETail` the members after
the first, each preceded by `", "`. -/
mutual

def ser : JVal → List Char
  | .null => ['n', 'u', 'l', 'l']
  | .str s => '"' :: (escapeStr s.data ++ ['"'])
  | .arr a => '[' :: (serItems a ++ [']'])
  | .obj o => '{' :: (serEntries o ++ ['}'])
termination_by structural v => v

def serItems : JArr → List Char
  | .nil => []
  | .cons x t => ser x ++ serTail t
termination_by structural a => a

def serTail : JArr → List Char
  | .nil => []
  | .cons x t => ',' :: ' ' :: (ser x ++ serTail t)
termination_by structural a => a

def serEntries : JObj → List Char
  | .nil => []
  | .cons k v t => serEntry k (ser v) ++ serETail t
termination_by structural o => o

def serETail : JObj → List Char
  | .nil => []
  | .cons k v t => ',' :: ' ' :: (serEntry k (ser v) ++ serETail t)
termination_by structural o => o

end

/- Recursively sort every object of a value by its keys: serializing
`canon v` in stored order is exactly serializing `v` with
`sort_keys=True`. -/
mutual

def canon : JVal → JVal
  | .null => .null
  | .str s => .str s
  | .arr a => .arr (canonA a)
  | .obj o => .obj (JObj.sortKeys (canonO o))
termination_by structural v => v

def canonA : JArr → JArr
  | .nil => .nil
  | .cons x t => .cons (canon x) (canonA t)
termination_by structural a => a

def canonO : JObj → JObj
  | .nil => .nil
  | .cons k v t => .cons k (canon v) (canonO t)
termination_by structural o => o

end

/-- Model of `json.dumps(o, sort_keys=True)` for a dict `o`. -/
def dumps (o : JObj) : List Char := ser (canon (.obj o))

/-- Model of `hashlib.sha256(s.encode()).hexdigest()`: SHA-256 is
treated as collision-free, so a digest is identified with the hashed
string itself.  Two digests are equal exactly when the inputs are. -/
def sha256hex (s : List Char) : List Char := s

/-- Python `str(n)` for a nonnegative int, with explicit fuel so that
the recursion is structural (the fuel `n + 1` always suffices). -/
def natToDecAux : Nat → Nat → List Char
  | 0, _ => []
  | fuel + 1, n =>
      if n < 10 then [Nat.digitChar n]
      else natToDecAux fuel (n / 10) ++ [Nat.digitChar (n % 10)]

/-- Decimal rendering of a natural number, `str(n)` in Python. -/
def natToDec (n : Nat) : List Char := natToDecAux (n + 1) n

/-- `BlockchainEvidenceLedger.calculate_hash` (lines 36-39): the block
string is the f-string `f"{index}{timestamp}{json.dumps(evidence,
sort_keys=True)}{previous_hash}"`, hashed with SHA-256. -/
def calculate_hash (index : Nat) (timestamp : String) (evidence : JObj)
    (previous_hash : List Char) : List Char :=
  sha256hex (natToDec index ++ timestamp.data ++ dumps evidence ++ previous_hash)

/-- A block of the chain (the dicts appended to `self.chain`). -/
structure Block where
  index : Nat
  timestamp : String
  evidence : JObj
  previous_hash : List Char
  hash : List Char
deriving DecidableEq

/-- The evidence payload stored in the genesis block (lines 25-30). -/
def genesis_evidence : JObj := JObj.ofList
  [ ("description", .str "Genesis Block - SENTINEL-X Evidence Chain Initialization"),
    ("case_id", .str "GENESIS-2024-001"),
    ("agency", .str "National Cyber Security Coordinator"),
    ("purpose", .str "Initialize tamper-proof evidence ledger") ]

/-- `initialize_genesis_block` (lines 20-34).  The method calls
`datetime.datetime.now().isoformat()` twice: `t1` is the draw stored in
the block's `timestamp` field, `t2` the draw passed to `calculate_hash`.
Note that the code passes the empty dict `{}` (here `JObj.nil`), not the
stored genesis payload, to `calculate_hash`. -/
def initialize_genesis_block (t1 t2 : String) : Block :=
  { index := 0
    timestamp := t1
    evidence := genesis_evidence
    previous_hash := List.replicate 64 '0'
    hash := calculate_hash 0 t2 JObj.nil (List.replicate 64 '0') }

/-- The ledger state: `self.chain` and `self.chain_name`. -/
structure BlockchainEvidenceLedger where
  chain : List Block
  chain_name : String
deriving DecidableEq

/-- The constructor with the default chain name (lines 15-18). -/
def mkLedger (t1 t2 : String) : BlockchainEvidenceLedger :=
  { chain := [initialize_genesis_block t1 t2]
    chain_name := "SENTINEL-X_EVIDENCE_CHAIN" }

/-- `_create_digital_signature` (lines 136-147); `now` is the
`timestamp_signed` draw.  The `signature` is the SHA-256 digest of the
canonical serialization of the raw evidence data. -/
def create_digital_signature (evidence_data : JObj) (now : String) : JObj :=
  JObj.ofList
    [ ("signature_method", .str "SHA256-RSA (Simulated)"),
      ("signature", .str (String.mk (sha256hex (dumps evidence_data)))),
      ("signing_authority", .str "SENTINEL-X Digital Evidence System"),
      ("timestamp_signed", .str now),
      ("public_key", .str ("MIIBIjANBgkqhkiG9w0BAQEFAAOCAQ8AMIIBCgKCAQEA" ++ "...")) ]

/-- `_hash_evidence_content` (lines 149-158). -/
def hash_evidence_content (evidence_data : JObj) : List Char :=
  sha256hex (dumps (JObj.ofList
    [ ("text_content", pyGet evidence_data "text" (.str "")),
      ("metadata", pyGet evidence_data "metadata" (.obj .nil)),
      ("timestamp", pyGet evidence_data "timestamp" (.str "")),
      ("source", pyGet evidence_data "source" (.str "")) ]))

/-- `_hash_file` (lines 160-162). -/
def hash_file (content : List Char) : List Char := sha256hex content

/-- The string content of a value (`_hash_file` is only ever applied to
strings; a non-string would raise in Python and never occurs here). -/
def strData : JVal → List Char
  | .str s => s.data
  | _ => []

/-- One attachment entry (lines 61-68): `att.get("filename")` with `None`
default, the file hash, and the type with default `"text/plain"`.  A
non-dict attachment would raise in Python; it is modelled as an empty
dict. -/
def attachmentEntry (att : JVal) : JVal :=
  match att with
  | .obj a => .obj (JObj.ofList
      [ ("filename", pyGetNone (JObj.mk' a) "filename"),
        ("hash", .str (String.mk (hash_file (strData (pyGet (JObj.mk' a) "content" (.str "")))))),
        ("type", pyGet (JObj.mk' a) "type" (.str "text/plain")) ])
  | _ => .obj JObj.nil
where JObj.mk' (o : JObj) : JObj := o

/-- Map over a JSON array, as the list comprehension over
`evidence_data["attachments"]` (a non-list value would raise). -/
def arrMap (f : JVal → JVal) : JArr → JArr
  | .nil => .nil
  | .cons x t => .cons (f x) (arrMap f t)

/-- The array stored under a key (`[] ` when the value is not an array). -/
def asArr : JVal → JArr
  | .arr a => a
  | _ => .nil

/-- The `evidence_metadata` dict built by `add_evidence` (lines 44-68),
with the `attachments` entry appended when `evidence_data` has one.
`now1` is the `datetime.now()` draw used as the default of
`timestamp_collected`, `now2` the `timestamp_signed` draw inside
`_create_digital_signature`. -/
def evidence_metadata (evidence_data : JObj) (case_id agency : String)
    (now1 now2 : String) : JObj :=
  JObj.ofList (
    [ ("case_id", .str case_id),
      ("agency", .str agency),
      ("timestamp_collected", pyGet evidence_data "timestamp" (.str now1)),
      ("evidence_type", pyGet evidence_data "type" (.str "Digital Threat Intelligence")),
      ("severity", pyGet evidence_data "threat_level" (.str "UNKNOWN")),
      ("location", pyGet evidence_data "location" (.str "Unknown")),
      ("description", pyGet evidence_data "description" (.str "")),
      ("digital_signature", .obj (create_digital_signature evidence_data now2)),
      ("witnesses", pyGet evidence_data "witnesses" (.arr .nil)),
      ("collecting_officer", pyGet evidence_data "collecting_officer" (.str "SENTINEL-X AI System")),
      ("hash_evidence", .str (String.mk (hash_evidence_content evidence_data))) ]
    ++ (if evidence_data.hasKey "attachments" then
          [("attachments", .arr (arrMap attachmentEntry (asArr (pyItem evidence_data "attachments"))))]
        else []))

/-- A block used only as the (unreachable) default of `chain[-1]` on an
empty chain; every ledger's chain starts from the genesis block and is
never empty. -/
def emptyChainBlock : Block :=
  { index := 0, timestamp := "", evidence := .nil, previous_hash := [], hash := [] }

/-- `verify_block` (lines 91-112): index continuity, hash linkage, and
the recomputed hash against the stored one. -/
def verify_block (block previous_block : Block) : Bool :=
  if block.index ≠ previous_block.index + 1 then false
  else if block.previous_hash ≠ previous_block.hash then false
  else if block.hash ≠ calculate_hash block.index block.timestamp
      block.evidence block.previous_hash then false
  else true

/-- `add_evidence` (lines 41-89).  `now1`, `now2`, `now3` are the three
`datetime.now()` draws in evaluation order (`timestamp_collected`
default, `timestamp_signed`, the new block's `timestamp`).  Returns the
new ledger and block, or the `ValueError` message when the freshly built
block fails `verify_block` (in which case nothing was appended). -/
def add_evidence (led : BlockchainEvidenceLedger) (evidence_data : JObj)
    (case_id agency : String) (now1 now2 now3 : String) :
    Except String (BlockchainEvidenceLedger × Block) :=
  let meta := evidence_metadata evidence_data case_id agency now1 now2
  let previous_block := led.chain.getLastD emptyChainBlock
  let new_index := previous_block.index + 1
  let new_hash := calculate_hash new_index now3 meta previous_block.hash
  let new_block : Block :=
    { index := new_index
      timestamp := now3
      evidence := meta
      previous_hash := previous_block.hash
      hash := new_hash }
  if verify_block new_block previous_block then
    .ok ({ led with chain := led.chain ++ [new_block] }, new_block)
  else
    .error "Block verification failed!"

/-- The result dict of `verify_chain`; an `Option` field is `none` when
the Python dict does not carry that key. -/
structure VerifyResult where
  status : String
  message : String
  compromised_block : Option Nat
  total_blocks : Option Nat
deriving DecidableEq

/-- The index of the first block failing `verify_block` against its
predecessor, scanning `chain[i]` against `chain[i-1]` from `i = 1` (the
loop of lines 121-127). -/
def firstBad : Block → List Block → Nat → Option Nat
  | _, [], _ => none
  | prev, b :: rest, i =>
      if verify_block b prev then firstBad b rest (i + 1) else some i

/-- `verify_chain` (lines 114-134). -/
def verify_chain (chain : List Block) : VerifyResult :=
  match chain with
  | [] =>
      { status := "EMPTY", message := "Chain is empty",
        compromised_block := none, total_blocks := none }
  | [_] =>
      { status := "VALID", message := "Only genesis block exists",
        compromised_block := none, total_blocks := none }
  | b0 :: rest =>
      match firstBad b0 rest 1 with
      | some i =>
          { status := "COMPROMISED",
            message := "Chain compromised at block #" ++ String.mk (natToDec i),
            compromised_block := some i, total_blocks := none }
      | none =>
          { status := "VALID",
            message := "Blockchain integrity verified for "
              ++ String.mk (natToDec (rest.length + 1)) ++ " blocks",
            compromised_block := none, total_blocks := some (rest.length + 1) }

/-- Python `block["evidence"].get("case_id") == case_id`: equality of a
JSON value with a string, as Python `==` decides it (`None` or any
non-string compares unequal). -/
def pyEqStr (v : JVal) (s : String) : Bool :=
  match v with
  | .str s2 => s2 = s
  | _ => false

/-- The case filter shared by `generate_fir_report`,
`generate_ecourt_compatible` and `export_for_court`. -/
def filterCase (chain : List Block) (case_id : String) : List Block :=
  chain.filter (fun b => pyEqStr (pyGetNone b.evidence "case_id") case_id)

/-- One entry of the FIR report's `evidence_chain` (lines 188-198). -/
structure FirChainEntry where
  block_index : Nat
  timestamp : String
  evidence_hash : List Char
  evidence_type : JVal
  severity : JVal
  description : JVal
deriving DecidableEq

/-- The `evidence_chain` entry built from one block (lines 189-196). -/
def firEntryOfBlock (b : Block) : FirChainEntry :=
  { block_index := b.index
    timestamp := b.timestamp
    evidence_hash := b.hash
    evidence_type := pyItem b.evidence "evidence_type"
    severity := pyItem b.evidence "severity"
    description := pyItem b.evidence "description" }

/-- The variable parts of the FIR report dict (lines 171-232); the
constant administrative fields (police station, sections, officer,
recommended actions, court readiness) are fixed strings in the source
and are omitted here. -/
structure FirReport where
  fir_number : String
  date_time_lodged : String
  case_id : String
  date_time_occurrence : JVal
  place_of_occurrence : JVal
  evidence_chain : List FirChainEntry
  digital_signatures : List JVal
  blockchain_verification : VerifyResult
deriving DecidableEq

/-- `generate_fir_report` (lines 164-232).  `nowY` is the
`strftime("%Y")` draw, `nowIso` the `isoformat()` draw.  The error dict
`{"error": ...}` returned on an unknown case id is `Except.error` with
that message. -/
def generate_fir_report (led : BlockchainEvidenceLedger) (case_id : String)
    (nowY nowIso : String) : Except String FirReport :=
  let case_evidence := filterCase led.chain case_id
  match case_evidence with
  | [] => .error ("No evidence found for case " ++ case_id)
  | first :: _ =>
      .ok
        { fir_number := "FIR/" ++ nowY ++ "/" ++ case_id
          date_time_lodged := nowIso
          case_id := case_id
          date_time_occurrence := pyItem first.evidence "timestamp_collected"
          place_of_occurrence := pyGet first.evidence "location" (.str "Multiple locations")
          evidence_chain := case_evidence.map firEntryOfBlock
          digital_signatures := case_evidence.map (fun b =>
            pyItem b.evidence "digital_signature")
          blockchain_verification := verify_chain led.chain }

/-- One entry of the e-Court package's `digital_evidence_files`
(lines 282-294). -/
structure ECourtFile where
  file_index : Nat
  hash_value : List Char
  previous_hash : List Char
  timestamp : String
deriving DecidableEq

/-- The variable parts of the e-Court package (lines 234-307); constant
fields (court details, compliance certificates, witness affidavit texts)
are omitted. -/
structure ECourtPackage where
  case_id : String
  total_evidence_blocks : Nat
  time_period : String
  digital_evidence_files : List ECourtFile
  witness_signatures : List JVal
deriving DecidableEq

/-- `generate_ecourt_compatible` (lines 234-307), with the same error
convention as the FIR report. -/
def generate_ecourt_compatible (led : BlockchainEvidenceLedger)
    (case_id : String) : Except String ECourtPackage :=
  let case_evidence := filterCase led.chain case_id
  match case_evidence with
  | [] => .error ("No evidence found for case " ++ case_id)
  | first :: _ =>
      .ok
        { case_id := case_id
          total_evidence_blocks := case_evidence.length
          time_period := first.timestamp ++ " to "
            ++ (case_evidence.getLastD first).timestamp
          digital_evidence_files := case_evidence.map (fun b =>
            { file_index := b.index
              hash_value := b.hash
              previous_hash := b.previous_hash
              timestamp := b.timestamp })
          witness_signatures := case_evidence.map (fun b =>
            pyItem b.evidence "digital_signature") }

/-- The inputs of one `add_evidence` call (the evidence dict, the two
string arguments and the three timestamp draws). -/
structure AddInput where
  evidence_data : JObj
  case_id : String
  agency : String
  now1 : String
  now2 : String
  now3 : String
deriving DecidableEq

/-- Perform one `add_evidence` call, keeping the ledger unchanged on the
(unreachable) failure branch, as the raised `ValueError` leaves
`self.chain` untouched. -/
def addStep (led : BlockchainEvidenceLedger) (inp : AddInput) :
    BlockchainEvidenceLedger :=
  match add_evidence led inp.evidence_data inp.case_id inp.agency
      inp.now1 inp.now2 inp.now3 with
  | .ok (led2, _) => led2
  | .error _ => led

/-- A sequence of `add_evidence` calls. -/
def addMany (led : BlockchainEvidenceLedger) (inps : List AddInput) :
    BlockchainEvidenceLedger :=
  inps.foldl addStep led

/-- Replace the value stored under an existing key (Python `d[k] = v`
on a key the dict already has: the entry keeps its position).  A missing
key leaves the object unchanged. -/
def JObj.setKey (k : String) (v : JVal) : JObj → JObj
  | .nil => .nil
  | .cons k2 v2 t =>
      if k = k2 then .cons k2 v t else .cons k2 v2 (JObj.setKey k v t)

/-- The three pairwise checks of `verify_block`, as a proposition: index
continuity, hash linkage, and the stored hash being the recomputed
digest of the block's own fields. -/
def pairChecks (b p : Block) : Prop :=
  b.index = p.index + 1 ∧ b.previous_hash = p.hash ∧
    b.hash = calculate_hash b.index b.timestamp b.evidence b.previous_hash

instance (b p : Block) : Decidable (pairChecks b p) :=
  inferInstanceAs (Decidable (_ = _ ∧ _ = _ ∧ _ = _))

/-- Every adjacent pair of the chain passes `verify_block` (the
predicate `verify_chain`'s loop decides). -/
def chainOk : List Block → Bool
  | [] => true
  | [_] => true
  | a :: b :: t => verify_block b a && chainOk (b :: t)

/-- The block `add_evidence` constructs on top of `prev`. -/
def builtBlock (prev : Block) (evidence_data : JObj)
    (case_id agency now1 now2 now3 : String) : Block :=
  { index := prev.index + 1
    timestamp := now3
    evidence := evidence_metadata evidence_data case_id agency now1 now2
    previous_hash := prev.hash
    hash := calculate_hash (prev.index + 1) now3
      (evidence_metadata evidence_data case_id agency now1 now2) prev.hash }

/-- The first character of a serialized value, by constructor. -/
def serHead : JVal → Char
  | .null => 'n'
  | .str _ => '"'
  | .arr _ => '['
  | .obj _ => '{'

/-- Lookup on key/value lists, mirroring `JObj.lookup`. -/
def lookupL (k : String) : List (String × JVal) → Option JVal
  | [] => none
  | p :: t => if k = p.1 then some p.2 else lookupL k t

/-- Key order on object entries: compare the (string) keys by code
point. -/
def leKey (p q : String × JVal) : Prop := lexLe p.1.data q.1.data = true

/-- Strict key order: the keys compare and differ. -/
def ltKey (p q : String × JVal) : Prop := leKey p q ∧ p.1 ≠ q.1

/-- A fixed timestamp used for the concrete sample ledgers below. -/
def exTs : String := "2024-01-01T00:00:00"

/-- A concrete `add_evidence` input with the given case id. -/
def exInput (cid : String) : AddInput :=
  { evidence_data := JObj.nil, case_id := cid, agency := "NIA",
    now1 := "2024-01-01T00:00:01", now2 := "2024-01-01T00:00:02",
    now3 := "2024-01-01T00:00:03" }

/-- A concrete ledger holding the genesis block and one evidence block
for case "A". -/
def exLedger1 : BlockchainEvidenceLedger := addMany (mkLedger exTs exTs) [exInput "A"]

/-- The genesis block of `exLedger1`. -/
def exGenesisBlock : Block := exLedger1.chain.headD emptyChainBlock

/-- `exLedger1` with the genesis block's `description` field rewritten
(tampering with block 0). -/
def exTamperedGenesisEvidence : JObj :=
  JObj.setKey "description" (JVal.str "TAMPERED") exGenesisBlock.evidence

def exTamperedGenesis : List Block :=
  List.cons { exGenesisBlock with evidence := exTamperedGenesisEvidence }
    exLedger1.chain.tail

/-- A forged evidence payload. -/
def exResignedEvidence : JObj := .cons "case_id" (.str "FORGED") .nil

/-- A block whose evidence was replaced and whose hash was recomputed
consistently (a "resigned" forgery on top of the genesis block). -/
def exResignedB1 : Block :=
  { index := 1, timestamp := "T1", evidence := exResignedEvidence,
    previous_hash := (initialize_genesis_block exTs exTs).hash,
    hash := calculate_hash 1 "T1" exResignedEvidence
      (initialize_genesis_block exTs exTs).hash }

/-- A second consistently resigned block. -/
def exResignedB2 : Block :=
  { index := 2, timestamp := "T2", evidence := exResignedEvidence,
    previous_hash := exResignedB1.hash,
    hash := calculate_hash 2 "T2" exResignedEvidence exResignedB1.hash }

/-- A locally consistent chain that was not produced by `add_evidence`:
every pairwise check passes although the evidence is forged. -/
def exResignedChain : List Block :=
  [initialize_genesis_block exTs exTs, exResignedB1, exResignedB2]

/-- The single evidence block of `exLedger1`. -/
def exBlock1 : Block := exLedger1.chain.getD 1 emptyChainBlock

/-- `exBlock1` with its `case_id` field rewritten (tampering with
block 1). -/
def exTamperedB1 : Block :=
  { exBlock1 with evidence := JObj.setKey "case_id" (JVal.str "X") exBlock1.evidence }

example : dumps (JObj.ofList [("b", .str "x"), ("a", .null)]) =
    ['\x7b', '"', 'a', '"', ':', ' ', 'n', 'u', 'l', 'l', ',', ' ',
     '"', 'b', '"', ':', ' ', '"', 'x', '"', '\x7d'] := by decide

set_option maxRecDepth 4000

example : natToDec 0 = ['0'] := by decide

example : natToDec 210 = ['2', '1', '0'] := by decide

example :
    (verify_chain (addMany (mkLedger "t1" "t2")
      [⟨.nil, "A", "Agency", "n1", "n2", "n3"⟩]).chain).status = "VALID" := by decide

/-! Decimal rendering: `natToDec` is injective. -/

theorem natToDecAux_fuel : ∀ n f1 f2, n < f1 → n < f2 →
    natToDecAux f1 n = natToDecAux f2 n := by
  intro n
  induction n using Nat.strong_induction_on with
  | _ n ih =>
    intro f1 f2 h1 h2
    match f1, f2 with
    | f1 + 1, f2 + 1 =>
      by_cases h10 : n < 10
      · simp [natToDecAux, h10]
      · have hd : n / 10 < n := Nat.div_lt_self (by omega) (by omega)
        simp only [natToDecAux, if_neg h10]
        rw [ih (n / 10) hd f1 f2 (by omega) (by omega)]

theorem natToDecAux_ne_nil : ∀ f n, n < f → natToDecAux f n ≠ [] := by
  intro f n h
  match f with
  | f + 1 =>
    by_cases h10 : n < 10 <;> simp [natToDecAux, h10]

theorem digitChar_inj10 : ∀ a < 10, ∀ b < 10,
    Nat.digitChar a = Nat.digitChar b → a = b := by decide

theorem natToDec_inj : ∀ m n, natToDec m = natToDec n → m = n := by
  intro m
  induction m using Nat.strong_induction_on with
  | _ m ih =>
    intro n h
    by_cases hm : m < 10 <;> by_cases hn : n < 10
    · simp only [natToDec, natToDecAux, if_pos hm, if_pos hn] at h
      exact digitChar_inj10 m hm n hn (by simpa using h)
    · simp only [natToDec, natToDecAux, if_pos hm, if_neg hn] at h
      have := congrArg List.length h
      have hne := natToDecAux_ne_nil n (n / 10)
        (Nat.lt_of_lt_of_le (Nat.div_lt_self (by omega) (by omega)) (by omega))
      simp at this
      cases h2 : natToDecAux n (n / 10) with
      | nil => exact absurd h2 hne
      | cons a t => rw [h2] at this; simp at this
    · simp only [natToDec, natToDecAux, if_neg hm, if_pos hn] at h
      have := congrArg List.length h
      have hne := natToDecAux_ne_nil m (m / 10)
        (Nat.lt_of_lt_of_le (Nat.div_lt_self (by omega) (by omega)) (by omega))
      cases h2 : natToDecAux m (m / 10) with
      | nil => exact absurd h2 hne
      | cons a t => rw [h2] at this; simp at this
    · simp only [natToDec, natToDecAux, if_neg hm, if_neg hn] at h
      obtain ⟨hA, hD⟩ := List.append_inj' h (by simp)
      have hmod : m % 10 = n % 10 :=
        digitChar_inj10 (m % 10) (Nat.mod_lt m (by omega)) (n % 10)
          (Nat.mod_lt n (by omega)) (by simpa using hD)
      have hmf : natToDecAux m (m / 10) = natToDec (m / 10) :=
        natToDecAux_fuel (m / 10) m (m / 10 + 1)
          (Nat.div_lt_self (by omega) (by omega)) (by omega)
      have hnf : natToDecAux n (n / 10) = natToDec (n / 10) :=
        natToDecAux_fuel (n / 10) n (n / 10 + 1)
          (Nat.div_lt_self (by omega) (by omega)) (by omega)
      rw [hmf, hnf] at hA
      have hdiv := ih (m / 10) (Nat.div_lt_self (by omega) (by omega)) (n / 10) hA
      omega

/-! String escaping: the escaped text followed by the closing quote
determines the original string and the rest. -/

theorem string_ext {s1 s2 : String} (h : s1.data = s2.data) : s1 = s2 := by
  cases s1; cases s2; simp only at h; rw [h]

theorem escapeStr_pfx : ∀ s1 s2 r1 r2,
    escapeStr s1 ++ '"' :: r1 = escapeStr s2 ++ '"' :: r2 →
    s1 = s2 ∧ r1 = r2 := by
  intro s1
  induction s1 with
  | nil =>
    intro s2 r1 r2 h
    cases s2 with
    | nil => simpa [escapeStr] using h
    | cons c t =>
      by_cases hc : c = '"' ∨ c = '\\'
      · simp only [escapeStr, if_pos hc, List.nil_append, List.cons_append,
          List.append_assoc] at h
        injection h with h1 _
        exact absurd h1 (by decide)
      · simp only [escapeStr, if_neg hc, List.nil_append, List.cons_append,
          List.append_assoc] at h
        injection h with h1 _
        push_neg at hc
        exact absurd h1.symm hc.1
  | cons c1 t1 ih =>
    intro s2 r1 r2 h
    cases s2 with
    | nil =>
      by_cases hc : c1 = '"' ∨ c1 = '\\'
      · simp only [escapeStr, if_pos hc, List.nil_append, List.cons_append,
          List.append_assoc] at h
        injection h with h1 _
        exact absurd h1 (by decide)
      · simp only [escapeStr, if_neg hc, List.nil_append, List.cons_append,
          List.append_assoc] at h
        injection h with h1 _
        push_neg at hc
        exact absurd h1 hc.1
    | cons c2 t2 =>
      by_cases hc1 : c1 = '"' ∨ c1 = '\\' <;> by_cases hc2 : c2 = '"' ∨ c2 = '\\'
      · simp only [escapeStr, if_pos hc1, if_pos hc2, List.cons_append,
          List.append_assoc] at h
        injection h with h1 h
        injection h with h2 h
        obtain ⟨ht, hr⟩ := ih t2 r1 r2 (by simpa using h)
        exact ⟨by rw [h2, ht], hr⟩
      · simp only [escapeStr, if_pos hc1, if_neg hc2, List.cons_append,
          List.append_assoc] at h
        injection h with h1 _
        push_neg at hc2
        exact absurd h1.symm hc2.2
      · simp only [escapeStr, if_neg hc1, if_pos hc2, List.cons_append,
          List.append_assoc] at h
        injection h with h1 _
        push_neg at hc1
        exact absurd h1 hc1.2
      · simp only [escapeStr, if_neg hc1, if_neg hc2, List.cons_append,
          List.append_assoc] at h
        injection h with h1 h
        obtain ⟨ht, hr⟩ := ih t2 r1 r2 (by simpa using h)
        exact ⟨by rw [h1, ht], hr⟩

/-! Serialization is a prefix code: the rendered text of a value
determines the value and where it ends. -/

theorem ser_head : ∀ v : JVal, ∃ t, ser v = serHead v :: t := by
  intro v
  cases v with
  | null => exact ⟨_, rfl⟩
  | str s => exact ⟨_, rfl⟩
  | arr a => exact ⟨_, rfl⟩
  | obj o => exact ⟨_, rfl⟩

theorem serHead_mem : ∀ v : JVal, serHead v = 'n' ∨ serHead v = '"' ∨
    serHead v = '[' ∨ serHead v = '{' := by
  intro v; cases v <;> simp [serHead]

theorem ser_length_pos (v : JVal) : 1 ≤ (ser v).length := by
  obtain ⟨t, e⟩ := ser_head v
  rw [e]; simp

theorem serPfx : ∀ N : Nat,
    (∀ v1 v2 r1 r2, (ser v1 ++ r1).length ≤ N →
      ser v1 ++ r1 = ser v2 ++ r2 → v1 = v2 ∧ r1 = r2) ∧
    (∀ a1 a2 r1 r2, (serItems a1 ++ ']' :: r1).length ≤ N →
      serItems a1 ++ ']' :: r1 = serItems a2 ++ ']' :: r2 → a1 = a2 ∧ r1 = r2) ∧
    (∀ o1 o2 r1 r2, (serEntries o1 ++ '}' :: r1).length ≤ N →
      serEntries o1 ++ '}' :: r1 = serEntries o2 ++ '}' :: r2 → o1 = o2 ∧ r1 = r2) := by
  intro N
  induction N using Nat.strong_induction_on with
  | _ N IH =>
    have Pval : ∀ v1 v2 r1 r2, (ser v1 ++ r1).length ≤ N →
        ser v1 ++ r1 = ser v2 ++ r2 → v1 = v2 ∧ r1 = r2 := by
      intro v1 v2 r1 r2 hlen h
      have hhead : serHead v1 = serHead v2 := by
        obtain ⟨t1, e1⟩ := ser_head v1
        obtain ⟨t2, e2⟩ := ser_head v2
        rw [e1, e2] at h
        simpa using congrArg (fun l => l.headD ' ') h
      cases v1 with
      | null =>
        cases v2 with
        | null => exact ⟨rfl, List.append_cancel_left h⟩
        | str s2 => exact absurd hhead (by simp only [serHead]; decide)
        | arr a2 => exact absurd hhead (by simp only [serHead]; decide)
        | obj o2 => exact absurd hhead (by simp only [serHead]; decide)
      | str s1 =>
        cases v2 with
        | null => exact absurd hhead (by simp only [serHead]; decide)
        | str s2 =>
          simp only [ser, List.cons_append, List.append_assoc,
            List.singleton_append] at h
          injection h with _ h
          obtain ⟨hd, hr⟩ := escapeStr_pfx s1.data s2.data r1 r2 h
          exact ⟨congrArg JVal.str (string_ext hd), hr⟩
        | arr a2 => exact absurd hhead (by simp only [serHead]; decide)
        | obj o2 => exact absurd hhead (by simp only [serHead]; decide)
      | arr a1 =>
        cases v2 with
        | null => exact absurd hhead (by simp only [serHead]; decide)
        | str s2 => exact absurd hhead (by simp only [serHead]; decide)
        | arr a2 =>
          simp only [ser, List.cons_append, List.append_assoc,
            List.singleton_append] at h
          injection h with _ h
          have hlen1 : (serItems a1 ++ ']' :: r1).length + 1 ≤ N := by
            simp only [ser, List.cons_append, List.append_assoc,
              List.singleton_append, List.length_cons, List.length_append] at hlen ⊢
            omega
          obtain ⟨ha, hr⟩ := (IH (N - 1) (by omega)).2.1 a1 a2 r1 r2 (by omega) h
          exact ⟨congrArg JVal.arr ha, hr⟩
        | obj o2 => exact absurd hhead (by simp only [serHead]; decide)
      | obj o1 =>
        cases v2 with
        | null => exact absurd hhead (by simp only [serHead]; decide)
        | str s2 => exact absurd hhead (by simp only [serHead]; decide)
        | arr a2 => exact absurd hhead (by simp only [serHead]; decide)
        | obj o2 =>
          simp only [ser, List.cons_append, List.append_assoc,
            List.singleton_append] at h
          injection h with _ h
          have hlen1 : (serEntries o1 ++ '}' :: r1).length + 1 ≤ N := by
            simp only [ser, List.cons_append, List.append_assoc,
              List.singleton_append, List.length_cons, List.length_append] at hlen ⊢
            omega
          obtain ⟨ho, hr⟩ := (IH (N - 1) (by omega)).2.2 o1 o2 r1 r2 (by omega) h
          exact ⟨congrArg JVal.obj ho, hr⟩
    refine ⟨Pval, ?_, ?_⟩
    · intro a1 a2 r1 r2 hlen h
      cases a1 with
      | nil =>
        cases a2 with
        | nil =>
          simp only [serItems, List.nil_append] at h
          injection h with _ h
          exact ⟨rfl, h⟩
        | cons x2 t2 =>
          obtain ⟨u, e⟩ := ser_head x2
          simp only [serItems, List.nil_append, List.append_assoc, e,
            List.cons_append] at h
          injection h with h1 _
          rcases serHead_mem x2 with h'|h'|h'|h' <;> rw [h'] at h1 <;>
            exact absurd h1 (by decide)
      | cons x1 t1 =>
        cases a2 with
        | nil =>
          obtain ⟨u, e⟩ := ser_head x1
          simp only [serItems, List.nil_append, List.append_assoc, e,
            List.cons_append] at h
          injection h with h1 _
          rcases serHead_mem x1 with h'|h'|h'|h' <;> rw [h'] at h1 <;>
            exact absurd h1 (by decide)
        | cons x2 t2 =>
          simp only [serItems, List.append_assoc] at h
          have hlenv : (ser x1 ++ (serTail t1 ++ ']' :: r1)).length ≤ N := by
            simp only [serItems, List.append_assoc, List.length_append] at hlen ⊢
            omega
          obtain ⟨hx, hrest⟩ := Pval x1 x2 _ _ hlenv h
          cases t1 with
          | nil =>
            cases t2 with
            | nil =>
              simp only [serTail, List.nil_append] at hrest
              injection hrest with _ hr
              exact ⟨by rw [hx], hr⟩
            | cons y2 u2 =>
              simp only [serTail, List.nil_append, List.cons_append] at hrest
              injection hrest with h1 _
              exact absurd h1 (by decide)
          | cons y1 u1 =>
            cases t2 with
            | nil =>
              simp only [serTail, List.nil_append, List.cons_append] at hrest
              injection hrest with h1 _
              exact absurd h1 (by decide)
            | cons y2 u2 =>
              simp only [serTail, List.cons_append, List.append_assoc] at hrest
              injection hrest with _ hrest
              injection hrest with _ hrest
              have hx1 := ser_length_pos x1
              have hlen2 : (serItems (JArr.cons y1 u1) ++ ']' :: r1).length < N := by
                simp only [serItems, serTail, List.length_append, List.cons_append,
                  List.append_assoc, List.length_cons] at hlen ⊢
                omega
              obtain ⟨hc, hr⟩ := (IH _ hlen2).2.1 (.cons y1 u1) (.cons y2 u2) r1 r2
                (le_refl _) (by simpa [serItems, List.append_assoc] using hrest)
              injection hc with hy hu
              exact ⟨by rw [hx, hy, hu], hr⟩
    · intro o1 o2 r1 r2 hlen h
      cases o1 with
      | nil =>
        cases o2 with
        | nil =>
          simp only [serEntries, List.nil_append] at h
          injection h with _ h
          exact ⟨rfl, h⟩
        | cons k2 v2 t2 =>
          simp only [serEntries, serEntry, List.nil_append, List.cons_append,
            List.append_assoc] at h
          injection h with h1 _
          exact absurd h1 (by decide)
      | cons k1 v1 t1 =>
        cases o2 with
        | nil =>
          simp only [serEntries, serEntry, List.nil_append, List.cons_append,
            List.append_assoc] at h
          injection h with h1 _
          exact absurd h1 (by decide)
        | cons k2 v2 t2 =>
          simp only [serEntries, serEntry, List.cons_append, List.append_assoc] at h
          injection h with _ h
          obtain ⟨hk, hrest⟩ := escapeStr_pfx k1.data k2.data _ _ h
          injection hrest with _ hrest
          injection hrest with _ hrest
          have hlenv : (ser v1 ++ (serETail t1 ++ '}' :: r1)).length ≤ N := by
            simp only [serEntries, serEntry, List.cons_append, List.append_assoc,
              List.length_append, List.length_cons] at hlen ⊢
            omega
          obtain ⟨hv, hrest2⟩ := Pval v1 v2 _ _ hlenv hrest
          cases t1 with
          | nil =>
            cases t2 with
            | nil =>
              simp only [serETail, List.nil_append] at hrest2
              injection hrest2 with _ hr
              exact ⟨by rw [string_ext hk, hv], hr⟩
            | cons l2 w2 u2 =>
              simp only [serETail, List.nil_append, List.cons_append] at hrest2
              injection hrest2 with h1 _
              exact absurd h1 (by decide)
          | cons l1 w1 u1 =>
            cases t2 with
            | nil =>
              simp only [serETail, List.nil_append, List.cons_append] at hrest2
              injection hrest2 with h1 _
              exact absurd h1 (by decide)
            | cons l2 w2 u2 =>
              simp only [serETail, List.cons_append, List.append_assoc] at hrest2
              injection hrest2 with _ hrest2
              injection hrest2 with _ hrest2
              have hv1 := ser_length_pos v1
              have hlen2 : (serEntries (JObj.cons l1 w1 u1) ++ '}' :: r1).length < N := by
                simp only [serEntries, serETail, serEntry, List.length_append,
                  List.cons_append, List.append_assoc, List.length_cons] at hlen ⊢
                omega
              obtain ⟨hc, hr⟩ := (IH _ hlen2).2.2 (.cons l1 w1 u1) (.cons l2 w2 u2) r1 r2
                (le_refl _) (by simpa [serEntries, serEntry, List.append_assoc] using hrest2)
              injection hc with hl hw hu
              exact ⟨by rw [string_ext hk, hv, hl, hw, hu], hr⟩

theorem ser_inj {v1 v2 : JVal} (h : ser v1 = ser v2) : v1 = v2 := by
  have h2 : ser v1 ++ [] = ser v2 ++ [] := by simp [h]
  exact ((serPfx (ser v1 ++ []).length).1 v1 v2 [] [] (le_refl _) h2).1


/-! Objects, key sorting and lookups.  (`JObj` belongs to a mutual
inductive family, so inductions are written as structural recursions.) -/

theorem JObj.toList_inj : ∀ {o1 o2 : JObj}, o1.toList = o2.toList → o1 = o2 := by
  intro o1
  match o1 with
  | .nil => intro o2 h; cases o2 <;> simp [JObj.toList] at h ⊢
  | .cons k v t =>
    intro o2 h
    cases o2 with
    | nil => simp [JObj.toList] at h
    | cons k2 v2 t2 =>
      simp only [JObj.toList, List.cons.injEq, Prod.mk.injEq] at h
      rw [h.1.1, h.1.2, JObj.toList_inj h.2]
termination_by structural o1 => o1

theorem toList_insertKey (k : String) (v : JVal) :
    ∀ o : JObj, List.Perm (JObj.insertKey k v o).toList ((k, v) :: o.toList) := by
  intro o
  match o with
  | .nil => simp [JObj.insertKey, JObj.toList]
  | .cons k2 v2 t =>
    by_cases hle : lexLe k.data k2.data
    · simp only [JObj.insertKey, hle, if_true]
      exact List.Perm.refl _
    · simp only [JObj.insertKey, hle, Bool.false_eq_true, if_false, JObj.toList]
      exact ((toList_insertKey k v t).cons (k2, v2)).trans
        (List.Perm.swap (k, v) (k2, v2) t.toList)
termination_by structural o => o

theorem toList_sortKeys : ∀ o : JObj,
    List.Perm (JObj.sortKeys o).toList o.toList := by
  intro o
  match o with
  | .nil => simp [JObj.sortKeys]
  | .cons k v t =>
    exact (toList_insertKey k v (JObj.sortKeys t)).trans
      ((toList_sortKeys t).cons (k, v))
termination_by structural o => o

theorem lookup_eq_lookupL (k : String) : ∀ o : JObj,
    o.lookup k = lookupL k o.toList := by
  intro o
  match o with
  | .nil => rfl
  | .cons k2 v t => simp [JObj.lookup, JObj.toList, lookupL, lookup_eq_lookupL k t]
termination_by structural o => o

theorem lookupL_perm : ∀ {l1 l2 : List (String × JVal)}, List.Perm l1 l2 →
    (l1.map Prod.fst).Nodup → ∀ k, lookupL k l1 = lookupL k l2 := by
  intro l1 l2 hp
  induction hp with
  | nil => intro _ _; rfl
  | cons p _ ih =>
    intro hnd k
    simp only [List.map_cons, List.nodup_cons] at hnd
    by_cases hk : k = p.1 <;> simp [lookupL, hk, ih hnd.2 k]
  | swap p q l =>
    intro hnd k
    simp only [List.map_cons, List.nodup_cons, List.mem_cons] at hnd
    have hne : q.1 ≠ p.1 := fun h => hnd.1 (Or.inl h)
    by_cases hkq : k = q.1 <;> by_cases hkp : k = p.1
    · exact absurd (hkq ▸ hkp) hne
    · simp [lookupL, hkq, hkp, hne, hne.symm]
    · simp [lookupL, hkq, hkp, hne, hne.symm]
    · simp [lookupL, hkq, hkp, hne, hne.symm]
  | trans h1 _ ih1 ih2 =>
    intro hnd k
    rw [ih1 hnd k, ih2 (((h1.map Prod.fst).nodup_iff).mp hnd) k]

theorem toList_canonO : ∀ o : JObj,
    (canonO o).toList = o.toList.map (fun p => (p.1, canon p.2)) := by
  intro o
  match o with
  | .nil => rfl
  | .cons k v t => simp [canonO, JObj.toList, toList_canonO t]
termination_by structural o => o

theorem lookup_canonO (k : String) : ∀ o : JObj,
    (canonO o).lookup k = (o.lookup k).map canon := by
  intro o
  match o with
  | .nil => rfl
  | .cons k2 v t =>
    by_cases hk : k = k2 <;> simp [canonO, JObj.lookup, hk, lookup_canonO k t]
termination_by structural o => o

theorem keys_canonO (o : JObj) : (canonO o).keys = o.keys := by
  simp [JObj.keys, toList_canonO]

theorem keys_cons (k : String) (v : JVal) (t : JObj) :
    (JObj.cons k v t).keys = k :: t.keys := rfl

theorem keys_setKey (k : String) (v : JVal) : ∀ o : JObj,
    (o.setKey k v).keys = o.keys := by
  intro o
  match o with
  | .nil => rfl
  | .cons k2 v2 t =>
    by_cases hk : k = k2 <;>
      simp [JObj.setKey, hk, keys_cons, keys_setKey k v t]
termination_by structural o => o

theorem lookup_setKey_self (k : String) (v : JVal) : ∀ o : JObj,
    (o.lookup k).isSome → (o.setKey k v).lookup k = some v := by
  intro o
  match o with
  | .nil => intro h; simp [JObj.lookup] at h
  | .cons k2 v2 t =>
    intro h
    by_cases hk : k = k2
    · simp [JObj.setKey, JObj.lookup, hk]
    · simp only [JObj.lookup, if_neg hk] at h
      simp [JObj.setKey, JObj.lookup, hk, lookup_setKey_self k v t h]
termination_by structural o => o

/-- Lookup under a key-sorted view: sorting does not change lookups when
the keys are distinct. -/
theorem lookup_sortKeys (o : JObj) (hnd : o.keys.Nodup) (k : String) :
    (JObj.sortKeys o).lookup k = o.lookup k := by
  rw [lookup_eq_lookupL, lookup_eq_lookupL]
  rw [JObj.keys] at hnd
  exact lookupL_perm (toList_sortKeys o)
    (((toList_sortKeys o).map Prod.fst).nodup_iff.mpr hnd) k

/-- Changing the value stored under a key of an evidence dict (to a
value with a different canonical form) changes the canonical
serialization.  This is the detectability core of tamper evidence. -/
theorem dumps_setKey_ne (o : JObj) (key : String) (v0 v : JVal)
    (hnd : o.keys.Nodup) (hl : o.lookup key = some v0)
    (hne : canon v ≠ canon v0) :
    dumps (o.setKey key v) ≠ dumps o := by
  intro h
  have hc : canon (.obj (o.setKey key v)) = canon (.obj o) := ser_inj h
  simp only [canon, JVal.obj.injEq] at hc
  have hnd1 : (canonO (o.setKey key v)).keys.Nodup := by
    rw [keys_canonO, keys_setKey]; exact hnd
  have hnd2 : (canonO o).keys.Nodup := by rw [keys_canonO]; exact hnd
  have h1 : (JObj.sortKeys (canonO (o.setKey key v))).lookup key = some (canon v) := by
    rw [lookup_sortKeys _ hnd1, lookup_canonO,
      lookup_setKey_self key v o (by simp [hl])]
    rfl
  have h2 : (JObj.sortKeys (canonO o)).lookup key = some (canon v0) := by
    rw [lookup_sortKeys _ hnd2, lookup_canonO, hl]
    rfl
  rw [hc, h2] at h1
  injection h1 with h3
  exact hne h3.symm

/-! Sensitivity of `calculate_hash` to its arguments. -/

theorem calculate_hash_evidence_ne (i : Nat) (ts : String) (ph : List Char)
    {e1 e2 : JObj} (h : dumps e1 ≠ dumps e2) :
    calculate_hash i ts e1 ph ≠ calculate_hash i ts e2 ph := by
  intro he
  simp only [calculate_hash, sha256hex] at he
  exact h (List.append_cancel_left (List.append_cancel_right he))

theorem calculate_hash_index_ne {i1 i2 : Nat} (h : i1 ≠ i2)
    (ts : String) (e : JObj) (ph : List Char) :
    calculate_hash i1 ts e ph ≠ calculate_hash i2 ts e ph := by
  intro he
  simp only [calculate_hash, sha256hex] at he
  exact h (natToDec_inj i1 i2
    (List.append_cancel_right (List.append_cancel_right (List.append_cancel_right he))))

theorem calculate_hash_prev_ne (i : Nat) (ts : String) (e : JObj)
    {ph1 ph2 : List Char} (h : ph1 ≠ ph2) :
    calculate_hash i ts e ph1 ≠ calculate_hash i ts e ph2 := by
  intro he
  simp only [calculate_hash, sha256hex] at he
  exact h (List.append_cancel_left he)

/-! Chain verification lemmas. -/

theorem verify_block_iff (b p : Block) : verify_block b p = true ↔ pairChecks b p := by
  unfold verify_block pairChecks
  by_cases h1 : b.index = p.index + 1 <;> by_cases h2 : b.previous_hash = p.hash <;>
    by_cases h3 : b.hash = calculate_hash b.index b.timestamp b.evidence b.previous_hash <;>
    simp [h1, h2, h3]

theorem verify_block_built (prev : Block) (ed : JObj) (cid ag n1 n2 n3 : String) :
    verify_block (builtBlock prev ed cid ag n1 n2 n3) prev = true := by
  simp [verify_block, builtBlock]

theorem add_evidence_eq (led : BlockchainEvidenceLedger) (ed : JObj)
    (cid ag n1 n2 n3 : String) :
    add_evidence led ed cid ag n1 n2 n3 =
      .ok ({ led with chain := led.chain ++
          [builtBlock (led.chain.getLastD emptyChainBlock) ed cid ag n1 n2 n3] },
        builtBlock (led.chain.getLastD emptyChainBlock) ed cid ag n1 n2 n3) := by
  have hv := verify_block_built (led.chain.getLastD emptyChainBlock) ed cid ag n1 n2 n3
  simp only [add_evidence, builtBlock] at hv ⊢
  rw [if_pos hv]

theorem addStep_eq (led : BlockchainEvidenceLedger) (inp : AddInput) :
    addStep led inp = { led with chain := led.chain ++
      [builtBlock (led.chain.getLastD emptyChainBlock) inp.evidence_data
        inp.case_id inp.agency inp.now1 inp.now2 inp.now3] } := by
  simp [addStep, add_evidence_eq]

theorem firstBad_none_iff : ∀ (rest : List Block) (prev : Block) (i : Nat),
    firstBad prev rest i = none ↔ chainOk (prev :: rest) = true := by
  intro rest
  induction rest with
  | nil => intro prev i; simp [firstBad, chainOk]
  | cons b t ih =>
    intro prev i
    by_cases hv : verify_block b prev = true
    · simp [firstBad, hv, chainOk, ih b (i + 1)]
    · simp [firstBad, hv, chainOk]

theorem chainOk_append : ∀ (c : List Block) (nb : Block), chainOk c = true →
    verify_block nb (c.getLastD emptyChainBlock) = true → chainOk (c ++ [nb]) = true := by
  intro c
  induction c with
  | nil => intro nb _ _; simp [chainOk]
  | cons a t ih =>
    intro nb h1 h2
    cases t with
    | nil => simpa [chainOk] using h2
    | cons b t' =>
      simp only [chainOk, Bool.and_eq_true] at h1
      simp only [List.cons_append, chainOk, Bool.and_eq_true]
      refine ⟨h1.1, ?_⟩
      have := ih nb h1.2 (by simpa [List.getLastD_cons] using h2)
      simpa using this

theorem chainOk_append_left : ∀ (l1 l2 : List Block),
    chainOk (l1 ++ l2) = true → chainOk l1 = true := by
  intro l1
  induction l1 with
  | nil => intro l2 _; rfl
  | cons a t ih =>
    intro l2 h
    cases t with
    | nil => rfl
    | cons b t' =>
      simp only [List.cons_append, chainOk, Bool.and_eq_true] at h ⊢
      exact ⟨h.1, by simpa using ih l2 (by simpa using h.2)⟩

theorem chainOk_mid : ∀ (C : List Block) (b : Block) (B : List Block), C ≠ [] →
    chainOk (C ++ b :: B) = true →
    verify_block b (C.getLastD emptyChainBlock) = true := by
  intro C
  induction C with
  | nil => intro b B h _; exact absurd rfl h
  | cons a C' ih =>
    intro b B _ h
    cases C' with
    | nil =>
      simp only [List.cons_append, List.nil_append, chainOk,
        Bool.and_eq_true] at h
      simpa [List.getLastD] using h.1
    | cons c C'' =>
      simp only [List.cons_append, chainOk, Bool.and_eq_true] at h
      have := ih b B (by simp) (by simpa using h.2)
      simpa [List.getLastD_cons] using this

theorem firstBad_split : ∀ (A : List Block) (prev tb : Block) (B : List Block) (i : Nat),
    chainOk (prev :: A) = true →
    verify_block tb ((prev :: A).getLastD emptyChainBlock) = false →
    firstBad prev (A ++ tb :: B) i = some (i + A.length) := by
  intro A
  induction A with
  | nil =>
    intro prev tb B i _ hbad
    have hbad2 : verify_block tb prev = false := by simpa using hbad
    simp [firstBad, hbad2]
  | cons a A' ih =>
    intro prev tb B i hok hbad
    simp only [chainOk, Bool.and_eq_true] at hok
    simp only [List.cons_append, firstBad, hok.1, if_true]
    have hrec := ih a tb B (i + 1) (by simpa using hok.2)
      (by simpa [List.getLastD_cons] using hbad)
    rw [show A'.append (tb :: B) = A' ++ tb :: B from rfl, hrec]
    simp only [List.length_cons]
    congr 1
    omega

theorem addMany_cons (led : BlockchainEvidenceLedger) (i : AddInput) (t : List AddInput) :
    addMany led (i :: t) = addMany (addStep led i) t := rfl

theorem addMany_chainOk : ∀ (inps : List AddInput) (led : BlockchainEvidenceLedger),
    chainOk led.chain = true → chainOk (addMany led inps).chain = true := by
  intro inps
  induction inps with
  | nil => intro led h; exact h
  | cons i t ih =>
    intro led h
    rw [addMany_cons]
    refine ih _ ?_
    rw [addStep_eq]
    exact chainOk_append led.chain _ h (verify_block_built _ _ _ _ _ _ _)

theorem addMany_length : ∀ (inps : List AddInput) (led : BlockchainEvidenceLedger),
    (addMany led inps).chain.length = led.chain.length + inps.length := by
  intro inps
  induction inps with
  | nil => intro led; simp [addMany]
  | cons i t ih =>
    intro led
    rw [addMany_cons, ih, addStep_eq]
    simp
    omega

theorem chainOk_iff_chain' : ∀ c : List Block,
    chainOk c = true ↔ List.Chain' (fun p b => pairChecks b p) c := by
  intro c
  induction c with
  | nil => simp [chainOk]
  | cons a t ih =>
    cases t with
    | nil => simp [chainOk]
    | cons b t' =>
      rw [List.chain'_cons, chainOk, Bool.and_eq_true, verify_block_iff, ← ih]

theorem verify_chain_status_iff (c : List Block) (hne : c ≠ []) :
    (verify_chain c).status = "VALID" ↔ chainOk c = true := by
  match c with
  | [b] => simp [verify_chain, chainOk]
  | b0 :: b1 :: t =>
    cases h : firstBad b0 (b1 :: t) 1 with
    | none =>
      have := (firstBad_none_iff (b1 :: t) b0 1).mp h
      simp [verify_chain, h, this]
    | some i =>
      have : ¬ chainOk (b0 :: b1 :: t) = true := by
        intro hok
        rw [(firstBad_none_iff (b1 :: t) b0 1).mpr hok] at h
        exact Option.noConfusion h
      simp [verify_chain, h, this]

theorem verify_chain_of_chainOk (b0 b1 : Block) (t : List Block)
    (h : chainOk (b0 :: b1 :: t) = true) :
    verify_chain (b0 :: b1 :: t) =
      { status := "VALID",
        message := "Blockchain integrity verified for "
          ++ String.mk (natToDec (t.length + 1 + 1)) ++ " blocks",
        compromised_block := none,
        total_blocks := some (t.length + 1 + 1) } := by
  have hfb := (firstBad_none_iff (b1 :: t) b0 1).mpr h
  simp [verify_chain, hfb]

/-! Code-point string order: totality, antisymmetry, transitivity; the
key sort is therefore canonical on dicts with distinct keys. -/

theorem char_toNat_inj {a b : Char} (h : a.toNat = b.toNat) : a = b := by
  apply Char.eq_of_val_eq
  apply UInt32.eq_of_val_eq
  apply Fin.eq_of_val_eq
  exact h

theorem lexLe_total : ∀ a b : List Char, lexLe a b = true ∨ lexLe b a = true := by
  intro a
  induction a with
  | nil => intro b; left; rfl
  | cons c s ih =>
    intro b
    cases b with
    | nil => right; rfl
    | cons d t =>
      rcases Nat.lt_trichotomy c.toNat d.toNat with h|h|h
      · left; simp [lexLe, h]
      · rcases ih t with h2|h2
        · left; simp [lexLe, h, h2]
        · right; simp [lexLe, h, h2]
      · right; simp [lexLe, h]

theorem lexLe_antisymm : ∀ a b : List Char,
    lexLe a b = true → lexLe b a = true → a = b := by
  intro a
  induction a with
  | nil =>
    intro b h1 h2
    cases b with
    | nil => rfl
    | cons d t => simp [lexLe] at h2
  | cons c s ih =>
    intro b h1 h2
    cases b with
    | nil => simp [lexLe] at h1
    | cons d t =>
      rcases Nat.lt_trichotomy c.toNat d.toNat with h|h|h
      · have hnd : ¬ d.toNat < c.toNat := by omega
        simp [lexLe, hnd, h] at h2
      · have h3 : ¬ c.toNat < d.toNat := by omega
        have h4 : ¬ d.toNat < c.toNat := by omega
        simp only [lexLe, h3, h4, if_false] at h1 h2
        rw [char_toNat_inj h, ih t h1 h2]
      · have hnc : ¬ c.toNat < d.toNat := by omega
        simp [lexLe, hnc, h] at h1

theorem lexLe_trans : ∀ a b c : List Char,
    lexLe a b = true → lexLe b c = true → lexLe a c = true := by
  intro a
  induction a with
  | nil => intro b c _ _; rfl
  | cons x s ih =>
    intro b c h1 h2
    cases b with
    | nil => simp [lexLe] at h1
    | cons y t =>
      cases c with
      | nil => simp [lexLe] at h2
      | cons z u =>
        by_cases hyx : y.toNat < x.toNat
        · simp [lexLe, hyx] at h1
          exact absurd h1 (by omega)
        by_cases hzy : z.toNat < y.toNat
        · simp [lexLe, hzy] at h2
          exact absurd h2 (by omega)
        by_cases hxy : x.toNat < y.toNat
        · have : x.toNat < z.toNat := by omega
          simp [lexLe, this]
        by_cases hyz : y.toNat < z.toNat
        · have : x.toNat < z.toNat := by omega
          simp [lexLe, this]
        · have e1 : ¬ x.toNat < z.toNat := by omega
          have e2 : ¬ z.toNat < x.toNat := by omega
          simp only [lexLe, hxy, hyx, if_false] at h1
          simp only [lexLe, hyz, hzy, if_false] at h2
          simp only [lexLe, e1, e2, if_false]
          exact ih t u h1 h2

theorem insertKey_pairwise (k : String) (v : JVal) : ∀ o : JObj,
    List.Pairwise leKey o.toList →
    List.Pairwise leKey (JObj.insertKey k v o).toList := by
  intro o
  match o with
  | .nil => intro _; simp [JObj.insertKey, JObj.toList]
  | .cons k2 v2 t =>
    intro hp
    rw [JObj.toList, List.pairwise_cons] at hp
    by_cases hle : lexLe k.data k2.data
    · simp only [JObj.insertKey, hle, if_true, JObj.toList]
      rw [List.pairwise_cons]
      refine ⟨?_, ?_⟩
      · intro x hx
        rcases List.mem_cons.mp hx with rfl | hx'
        · exact hle
        · exact lexLe_trans _ _ _ hle (hp.1 x hx')
      · rw [List.pairwise_cons]
        exact ⟨hp.1, hp.2⟩
    · simp only [JObj.insertKey, hle, Bool.false_eq_true, if_false, JObj.toList]
      rw [List.pairwise_cons]
      refine ⟨?_, insertKey_pairwise k v t hp.2⟩
      intro x hx
      have hx2 := (toList_insertKey k v t).mem_iff.mp hx
      rcases List.mem_cons.mp hx2 with rfl | hx'
      · rcases lexLe_total k.data k2.data with h|h
        · exact absurd h hle
        · exact h
      · exact hp.1 x hx'
termination_by structural o => o

theorem sortKeys_pairwise : ∀ o : JObj,
    List.Pairwise leKey (JObj.sortKeys o).toList := by
  intro o
  match o with
  | .nil => simp [JObj.sortKeys, JObj.toList]
  | .cons k v t => exact insertKey_pairwise k v _ (sortKeys_pairwise t)
termination_by structural o => o

theorem sortKeys_eq_of_perm (o1 o2 : JObj)
    (hperm : List.Perm o1.toList o2.toList) (hnd : o1.keys.Nodup) :
    JObj.sortKeys o1 = JObj.sortKeys o2 := by
  apply JObj.toList_inj
  have hperm2 : List.Perm (JObj.sortKeys o1).toList (JObj.sortKeys o2).toList :=
    (toList_sortKeys o1).trans (hperm.trans (toList_sortKeys o2).symm)
  have hnd1 : ((JObj.sortKeys o1).toList.map Prod.fst).Nodup := by
    refine (((toList_sortKeys o1).map Prod.fst).nodup_iff).mpr ?_
    simpa [JObj.keys] using hnd
  have hnd2 : ((JObj.sortKeys o2).toList.map Prod.fst).Nodup :=
    ((hperm2.map Prod.fst).nodup_iff).mp hnd1
  have hp1 : List.Pairwise ltKey (JObj.sortKeys o1).toList :=
    (sortKeys_pairwise o1).and (List.pairwise_map.mp hnd1)
  have hp2 : List.Pairwise ltKey (JObj.sortKeys o2).toList :=
    (sortKeys_pairwise o2).and (List.pairwise_map.mp hnd2)
  haveI : IsAntisymm (String × JVal) ltKey :=
    ⟨fun a b h1 h2 => absurd (string_ext (lexLe_antisymm _ _ h1.1 h2.1)) h1.2⟩
  exact List.eq_of_perm_of_sorted hperm2 hp1 hp2

theorem dumps_eq_of_perm (o1 o2 : JObj)
    (hperm : List.Perm o1.toList o2.toList) (hnd : o1.keys.Nodup) :
    dumps o1 = dumps o2 := by
  unfold dumps
  congr 1
  simp only [canon]
  congr 1
  apply sortKeys_eq_of_perm
  · rw [toList_canonO, toList_canonO]
    exact hperm.map _
  · rw [keys_canonO]
    exact hnd

/-! The claims. -/

/-- C3: the genesis block's stored hash is NOT computed over the block's
own fields.  `initialize_genesis_block` passes the empty dict (and a
second `now()` draw) to `calculate_hash`, so even when both timestamp
draws coincide, the stored hash differs from the digest of the stored
`(index, timestamp, evidence, previous_hash)` fields.  This theorem
evaluates the code at the failing input (a fresh ledger). -/
theorem c3_genesis_hash_not_over_own_fields :
    (initialize_genesis_block exTs exTs).hash ≠
      calculate_hash 0 (initialize_genesis_block exTs exTs).timestamp
        (initialize_genesis_block exTs exTs).evidence (List.replicate 64 '0') := by
  decide

/-- C4: `calculate_hash` is deterministic and independent of the
insertion order of the evidence keys: two evidence dicts equal as sets
of key/value pairs (same pairs, any insertion order, keys distinct)
yield the same digest. -/
theorem c4_hash_order_independent (i : Nat) (ts : String) (ph : List Char)
    (o1 o2 : JObj) (hperm : List.Perm o1.toList o2.toList)
    (hnd : o1.keys.Nodup) :
    calculate_hash i ts o1 ph = calculate_hash i ts o2 ph := by
  simp [calculate_hash, dumps_eq_of_perm o1 o2 hperm hnd]

/-- Witness for C4: two concrete two-key dicts with the keys inserted in
opposite orders hash identically. -/
theorem c4_hash_order_independent_witness :
    List.Perm (JObj.ofList [("b", JVal.str "2"), ("a", JVal.str "1")]).toList
      (JObj.ofList [("a", JVal.str "1"), ("b", JVal.str "2")]).toList ∧
    (JObj.ofList [("b", JVal.str "2"), ("a", JVal.str "1")]).keys.Nodup ∧
    calculate_hash 0 "T" (JObj.ofList [("b", JVal.str "2"), ("a", JVal.str "1")]) [] =
      calculate_hash 0 "T" (JObj.ofList [("a", JVal.str "1"), ("b", JVal.str "2")]) [] :=
  ⟨by decide, by decide,
    c4_hash_order_independent 0 "T" [] _ _ (by decide) (by decide)⟩

/-- C5: `calculate_hash` is sensitive to each argument: a different
index, a different previous hash, or a different string stored under any
key of the evidence dict (in particular a single changed character)
changes the digest (SHA-256 modelled collision-free). -/
theorem c5_hash_sensitive :
    (∀ (i1 i2 : Nat) (ts : String) (e : JObj) (ph : List Char), i1 ≠ i2 →
      calculate_hash i1 ts e ph ≠ calculate_hash i2 ts e ph) ∧
    (∀ (i : Nat) (ts : String) (e : JObj) (ph1 ph2 : List Char), ph1 ≠ ph2 →
      calculate_hash i ts e ph1 ≠ calculate_hash i ts e ph2) ∧
    (∀ (i : Nat) (ts : String) (e : JObj) (ph : List Char) (key s0 snew : String),
      e.keys.Nodup → e.lookup key = some (JVal.str s0) → snew ≠ s0 →
      calculate_hash i ts (e.setKey key (JVal.str snew)) ph ≠
        calculate_hash i ts e ph) := by
  refine ⟨fun i1 i2 ts e ph h => calculate_hash_index_ne h ts e ph,
    fun i ts e ph1 ph2 h => calculate_hash_prev_ne i ts e h, ?_⟩
  intro i ts e ph key s0 snew hnd hl hne
  refine calculate_hash_evidence_ne i ts ph
    (dumps_setKey_ne e key (JVal.str s0) (JVal.str snew) hnd hl ?_)
  simp only [canon, ne_eq, JVal.str.injEq]
  exact hne

/-- Witness for C5: each of the three sensitivities at concrete
inputs. -/
theorem c5_hash_sensitive_witness :
    (1 : Nat) ≠ 2 ∧
    calculate_hash 1 "T" JObj.nil [] ≠ calculate_hash 2 "T" JObj.nil [] ∧
    ['0'] ≠ ['1'] ∧
    calculate_hash 0 "T" JObj.nil ['0'] ≠ calculate_hash 0 "T" JObj.nil ['1'] ∧
    (JObj.cons "k" (JVal.str "a") JObj.nil).keys.Nodup ∧
    (JObj.cons "k" (JVal.str "a") JObj.nil).lookup "k" = some (JVal.str "a") ∧
    "b" ≠ "a" ∧
    calculate_hash 0 "T" ((JObj.cons "k" (JVal.str "a") JObj.nil).setKey "k"
        (JVal.str "b")) [] ≠
      calculate_hash 0 "T" (JObj.cons "k" (JVal.str "a") JObj.nil) [] :=
  ⟨by decide, c5_hash_sensitive.1 1 2 "T" JObj.nil [] (by decide),
   by decide, c5_hash_sensitive.2.1 0 "T" JObj.nil ['0'] ['1'] (by decide),
   by decide, by decide, by decide,
   c5_hash_sensitive.2.2 0 "T" (JObj.cons "k" (JVal.str "a") JObj.nil) []
     "k" "a" "b" (by decide) (by decide) (by decide)⟩

/-- C6: `add_evidence` never reaches its failure branch: the freshly
built block always passes `verify_block` against the current last block,
and the call appends exactly that block (so the `ValueError` raise and
the unchanged-chain guarantee are vacuous under sequential use). -/
theorem c6_add_evidence_total (led : BlockchainEvidenceLedger) (ed : JObj)
    (cid ag n1 n2 n3 : String) (_hne : led.chain ≠ []) :
    ∃ nb : Block,
      add_evidence led ed cid ag n1 n2 n3 =
        .ok ({ led with chain := led.chain ++ [nb] }, nb) ∧
      verify_block nb (led.chain.getLastD emptyChainBlock) = true :=
  ⟨builtBlock (led.chain.getLastD emptyChainBlock) ed cid ag n1 n2 n3,
    add_evidence_eq led ed cid ag n1 n2 n3,
    verify_block_built _ ed cid ag n1 n2 n3⟩

/-- Witness for C6 on a fresh ledger. -/
theorem c6_add_evidence_total_witness :
    (mkLedger exTs exTs).chain ≠ [] ∧
    ∃ nb : Block,
      add_evidence (mkLedger exTs exTs) JObj.nil "A" "NIA" "n1" "n2" "n3" =
        .ok ({ (mkLedger exTs exTs) with
          chain := (mkLedger exTs exTs).chain ++ [nb] }, nb) ∧
      verify_block nb ((mkLedger exTs exTs).chain.getLastD emptyChainBlock) = true :=
  ⟨by decide,
    c6_add_evidence_total (mkLedger exTs exTs) JObj.nil "A" "NIA" "n1" "n2" "n3"
      (by decide)⟩

/-- C8: `verify_chain` ignores the genesis block's evidence payload:
replacing block 0's evidence by anything yields the identical
verification result, because the loop never recomputes the genesis
block's hash (it only reads its stored `hash` as the predecessor link). -/
theorem c8_genesis_payload_irrelevant (b0 : Block) (rest : List Block) (ev2 : JObj) :
    verify_chain ({ b0 with evidence := ev2 } :: rest) = verify_chain (b0 :: rest) := by
  cases rest with
  | nil => rfl
  | cons b1 t => rfl

/-- C10: `add_evidence` does not validate `case_id` or `agency`: with
both empty the call still succeeds, appends a block, and stores the
empty strings verbatim in the new block's evidence. -/
theorem c10_empty_strings_accepted (led : BlockchainEvidenceLedger) (ed : JObj)
    (n1 n2 n3 : String) (_hne : led.chain ≠ []) :
    ∃ (l2 : BlockchainEvidenceLedger) (nb : Block),
      add_evidence led ed "" "" n1 n2 n3 = .ok (l2, nb) ∧
      l2.chain = led.chain ++ [nb] ∧
      nb.evidence.lookup "case_id" = some (JVal.str "") ∧
      nb.evidence.lookup "agency" = some (JVal.str "") := by
  refine ⟨_, builtBlock (led.chain.getLastD emptyChainBlock) ed "" "" n1 n2 n3,
    add_evidence_eq led ed "" "" n1 n2 n3, rfl, ?_, ?_⟩ <;> rfl

/-- Witness for C10 on a fresh ledger. -/
theorem c10_empty_strings_accepted_witness :
    (mkLedger exTs exTs).chain ≠ [] ∧
    ∃ (l2 : BlockchainEvidenceLedger) (nb : Block),
      add_evidence (mkLedger exTs exTs) JObj.nil "" "" "n1" "n2" "n3" = .ok (l2, nb) ∧
      l2.chain = (mkLedger exTs exTs).chain ++ [nb] ∧
      nb.evidence.lookup "case_id" = some (JVal.str "") ∧
      nb.evidence.lookup "agency" = some (JVal.str "") :=
  ⟨by decide,
    c10_empty_strings_accepted (mkLedger exTs exTs) JObj.nil "n1" "n2" "n3" (by decide)⟩

/-- C1 counterexample: with n = 0 successful calls (fresh ledger) the
claim demands a reported count of 1 verified block, but `verify_chain`
takes the single-block branch which reports no count at all: the status
is VALID and `total_blocks` is absent (`none`), not `some 1`. -/
theorem c1_counterexample_zero_adds :
    (verify_chain (addMany (mkLedger exTs exTs) []).chain).status = "VALID" ∧
    (verify_chain (addMany (mkLedger exTs exTs) []).chain).total_blocks = none ∧
    (verify_chain (addMany (mkLedger exTs exTs) []).chain).total_blocks ≠ some 1 :=
  ⟨rfl, rfl, by decide⟩

/-- C1 (amended): after n successful `add_evidence` calls on a fresh
ledger, `verify_chain` reports status VALID; for n ≥ 1 it also reports
`total_blocks = n + 1` (genesis plus one block per call).  For n = 0 the
single-block branch reports VALID without a count (see the
counterexample). -/
theorem c1_verify_after_adds (t1 t2 : String) (inps : List AddInput) :
    (verify_chain (addMany (mkLedger t1 t2) inps).chain).status = "VALID" ∧
    (inps ≠ [] →
      (verify_chain (addMany (mkLedger t1 t2) inps).chain).total_blocks =
        some (inps.length + 1)) := by
  have hok : chainOk (addMany (mkLedger t1 t2) inps).chain = true :=
    addMany_chainOk inps (mkLedger t1 t2) rfl
  have hlen : (addMany (mkLedger t1 t2) inps).chain.length = 1 + inps.length := by
    rw [addMany_length]
    rfl
  constructor
  · refine (verify_chain_status_iff _ ?_).mpr hok
    intro h
    rw [h] at hlen
    simp only [List.length_nil] at hlen
    omega
  · intro hinps
    cases hch : (addMany (mkLedger t1 t2) inps).chain with
    | nil =>
      rw [hch] at hlen
      simp only [List.length_nil] at hlen
      exact absurd hlen (by omega)
    | cons b0 rest =>
      cases rest with
      | nil =>
        rw [hch] at hlen
        simp only [List.length_cons, List.length_nil] at hlen
        exact absurd (List.length_eq_zero.mp (by omega)) hinps
      | cons b1 t =>
        rw [hch] at hok hlen
        rw [verify_chain_of_chainOk b0 b1 t hok]
        show some (t.length + 1 + 1) = some (inps.length + 1)
        simp only [List.length_cons] at hlen
        simp only [Option.some.injEq]
        omega

/-- Witness for C1 at one concrete call. -/
theorem c1_verify_after_adds_witness :
    ([exInput "A"] : List AddInput) ≠ [] ∧
    (verify_chain (addMany (mkLedger exTs exTs) [exInput "A"]).chain).status
      = "VALID" ∧
    (verify_chain (addMany (mkLedger exTs exTs) [exInput "A"]).chain).total_blocks
      = some 2 :=
  ⟨by decide, (c1_verify_after_adds exTs exTs [exInput "A"]).1,
    (c1_verify_after_adds exTs exTs [exInput "A"]).2 (by decide)⟩

/-- C9: `verify_chain` accepts exactly the locally consistent chains: on
any nonempty stored chain the status is VALID precisely when every
adjacent pair passes the three pairwise checks — however the chain was
produced.  (The witness instantiates it with a forged chain whose
evidence was replaced and whose hashes were recomputed consistently:
it verifies as VALID.) -/
theorem c9_valid_iff_locally_consistent (c : List Block) (hne : c ≠ []) :
    (verify_chain c).status = "VALID" ↔
      List.Chain' (fun p b => pairChecks b p) c := by
  rw [verify_chain_status_iff c hne, chainOk_iff_chain']

/-- Witness for C9: a consistently resigned forged chain is reported
VALID. -/
theorem c9_valid_iff_locally_consistent_witness :
    exResignedChain ≠ [] ∧
    List.Chain' (fun p b => pairChecks b p) exResignedChain ∧
    (verify_chain exResignedChain).status = "VALID" := by
  have hchain : List.Chain' (fun p b => pairChecks b p) exResignedChain := by
    simp only [exResignedChain, List.chain'_cons, List.chain'_singleton,
      pairChecks, and_true]
    decide
  exact ⟨by decide, hchain,
    (c9_valid_iff_locally_consistent exResignedChain (by decide)).mpr hchain⟩

/-! Tampering with a non-genesis block (claim C2). -/

theorem toList_ofList : ∀ l : List (String × JVal), (JObj.ofList l).toList = l := by
  intro l
  induction l with
  | nil => rfl
  | cons p t ih => cases p; simp [JObj.ofList, JObj.toList, ih]

theorem evidence_metadata_keys_nodup (ed : JObj) (cid ag n1 n2 : String) :
    (evidence_metadata ed cid ag n1 n2).keys.Nodup := by
  unfold evidence_metadata
  rw [JObj.keys, toList_ofList]
  by_cases h : ed.hasKey "attachments"
  all_goals simp [h]

theorem addMany_tail_nodup : ∀ (inps : List AddInput) (led : BlockchainEvidenceLedger),
    (∀ b ∈ led.chain.tail, b.evidence.keys.Nodup) →
    ∀ b ∈ (addMany led inps).chain.tail, b.evidence.keys.Nodup := by
  intro inps
  induction inps with
  | nil => intro led h; exact h
  | cons i t ih =>
    intro led h
    rw [addMany_cons]
    refine ih _ ?_
    rw [addStep_eq]
    intro b hb
    cases hch : led.chain with
    | nil => rw [hch] at hb; simp at hb
    | cons a l' =>
      rw [hch] at hb
      simp only [List.cons_append, List.tail_cons] at hb
      rcases List.mem_append.mp hb with hb' | hb'
      · exact h b (by rw [hch]; simpa using hb')
      · simp only [List.mem_singleton] at hb'
        rw [hb']
        exact evidence_metadata_keys_nodup _ _ _ _ _

theorem verify_chain_cons (b0 : Block) (rest : List Block) (hne : rest ≠ []) :
    verify_chain (b0 :: rest) =
      match firstBad b0 rest 1 with
      | some i =>
          { status := "COMPROMISED",
            message := "Chain compromised at block #" ++ String.mk (natToDec i),
            compromised_block := some i, total_blocks := none }
      | none =>
          { status := "VALID",
            message := "Blockchain integrity verified for "
              ++ String.mk (natToDec (rest.length + 1)) ++ " blocks",
            compromised_block := none, total_blocks := some (rest.length + 1) } := by
  cases rest with
  | nil => exact absurd rfl hne
  | cons b1 t => rfl

/-- C2 (amended): in a chain built by successful `add_evidence` calls,
changing any field of `block[k].evidence` for any k ≥ 1 (replacing the
value stored under an existing key by a value with a different canonical
JSON form, e.g. any different string) makes `verify_chain` report
COMPROMISED with `compromised_block = k` (the first failing block),
while every block after k is left exactly as it was.  For k = 0 the
change is never detected (see the counterexample): the genesis hash is
never recomputed.  Here the chain is split as `C ++ b :: B` with
`k = C.length ≥ 1`. -/
theorem c2_tamper_detected (t1 t2 : String) (inps : List AddInput)
    (C : List Block) (b : Block) (B : List Block)
    (hsplit : (addMany (mkLedger t1 t2) inps).chain = C ++ b :: B)
    (hC : C ≠ []) (key : String) (v0 v : JVal)
    (hl : b.evidence.lookup key = some v0)
    (hne : canon v ≠ canon v0) :
    verify_chain (C ++ { b with evidence := b.evidence.setKey key v } :: B) =
      { status := "COMPROMISED",
        message := "Chain compromised at block #" ++ String.mk (natToDec C.length),
        compromised_block := some C.length,
        total_blocks := none } ∧
    (C ++ { b with evidence := b.evidence.setKey key v } :: B).drop (C.length + 1)
      = B := by
  obtain ⟨c0, A, rfl⟩ : ∃ c0 A, C = c0 :: A := by
    cases C with
    | nil => exact absurd rfl hC
    | cons c0 A => exact ⟨c0, A, rfl⟩
  have hok : chainOk ((c0 :: A) ++ b :: B) = true := by
    rw [← hsplit]
    exact addMany_chainOk inps _ rfl
  have hnd : b.evidence.keys.Nodup := by
    have hmem : b ∈ (addMany (mkLedger t1 t2) inps).chain.tail := by
      rw [hsplit]; simp
    exact addMany_tail_nodup inps _ (by intro x hx; simp [mkLedger] at hx) b hmem
  have hlink := chainOk_mid (c0 :: A) b B (by simp) hok
  have hprefix : chainOk (c0 :: A) = true := chainOk_append_left _ _ hok
  have hpc := (verify_block_iff b _).mp hlink
  have hd : dumps (b.evidence.setKey key v) ≠ dumps b.evidence :=
    dumps_setKey_ne b.evidence key v0 v hnd hl hne
  have hhash : ({ b with evidence := b.evidence.setKey key v } : Block).hash ≠
      calculate_hash b.index b.timestamp (b.evidence.setKey key v) b.previous_hash := by
    show b.hash ≠ _
    rw [hpc.2.2]
    exact calculate_hash_evidence_ne b.index b.timestamp b.previous_hash (Ne.symm hd)
  have hbad : verify_block { b with evidence := b.evidence.setKey key v }
      ((c0 :: A).getLastD emptyChainBlock) = false := by
    have h1' : ({ b with evidence := b.evidence.setKey key v } : Block).index =
        ((c0 :: A).getLastD emptyChainBlock).index + 1 := hpc.1
    have h2' : ({ b with evidence := b.evidence.setKey key v } : Block).previous_hash =
        ((c0 :: A).getLastD emptyChainBlock).hash := hpc.2.1
    unfold verify_block
    rw [if_neg (not_not_intro h1'), if_neg (not_not_intro h2'), if_pos hhash]
  have hfb := firstBad_split A c0 { b with evidence := b.evidence.setKey key v } B 1
    hprefix hbad
  rw [Nat.add_comm 1 A.length] at hfb
  constructor
  · rw [show ((c0 :: A) ++ { b with evidence := b.evidence.setKey key v } :: B) =
      c0 :: (A ++ { b with evidence := b.evidence.setKey key v } :: B) from rfl]
    rw [verify_chain_cons c0 _ (by simp), hfb]
    simp only [List.length_cons]
  · rw [show ((c0 :: A) ++ { b with evidence := b.evidence.setKey key v } :: B) =
      ((c0 :: A) ++ [{ b with evidence := b.evidence.setKey key v }]) ++ B by simp]
    rw [show (c0 :: A).length + 1 = ((c0 :: A) ++
      [{ b with evidence := b.evidence.setKey key v }]).length by simp]
    exact List.drop_left _ _

/-- C2 counterexample (the k = 0 part of the claim is false): tampering
with the genesis block's evidence is never detected - the chain with a
rewritten genesis `description` still verifies as VALID with no
compromised block. -/
theorem c2_counterexample_genesis :
    exTamperedGenesisEvidence ≠ exGenesisBlock.evidence ∧
    (verify_chain exTamperedGenesis).status = "VALID" ∧
    (verify_chain exTamperedGenesis).compromised_block = none :=
  ⟨by decide, by decide, by decide⟩

/-- Witness for C2: tampering with the `case_id` of block 1 of a
concrete two-block ledger is reported as COMPROMISED at block 1. -/
theorem c2_tamper_detected_witness :
    exLedger1.chain = [exGenesisBlock] ++ exBlock1 :: [] ∧
    ([exGenesisBlock] : List Block) ≠ [] ∧
    exBlock1.evidence.lookup "case_id" = some (JVal.str "A") ∧
    canon (JVal.str "X") ≠ canon (JVal.str "A") ∧
    (verify_chain ([exGenesisBlock] ++ exTamperedB1 :: []) =
      { status := "COMPROMISED",
        message := "Chain compromised at block #"
          ++ String.mk (natToDec ([exGenesisBlock] : List Block).length),
        compromised_block := some ([exGenesisBlock] : List Block).length,
        total_blocks := none } ∧
      ([exGenesisBlock] ++ exTamperedB1 :: []).drop
        (([exGenesisBlock] : List Block).length + 1) = []) :=
  ⟨by decide, by decide, by decide, by decide,
    c2_tamper_detected exTs exTs [exInput "A"] [exGenesisBlock] exBlock1 []
      (by decide) (by decide) "case_id" (JVal.str "A") (JVal.str "X")
      (by decide) (by decide)⟩

/-! Case-filtered report generation (claim C7). -/

theorem addMany_nil (led : BlockchainEvidenceLedger) : addMany led [] = led := rfl

theorem getLastD_concat (l : List Block) (a d : Block) :
    (l ++ [a]).getLastD d = a := by
  rw [List.getLastD_eq_getLast?, List.getLast?_concat]
  rfl

theorem builtBlock_case_id (p : Block) (ed : JObj) (cid ag n1 n2 n3 : String) :
    pyGetNone (builtBlock p ed cid ag n1 n2 n3).evidence "case_id" = JVal.str cid := rfl

theorem genesis_case_id (t1 t2 : String) :
    pyGetNone (initialize_genesis_block t1 t2).evidence "case_id" =
      JVal.str "GENESIS-2024-001" := rfl

/-- C7: after appending three evidence records with case ids "A", "A",
"B", the FIR report for "A" holds exactly the two matching blocks, in
append order (they are chain blocks 1 and 2); a report for the unknown
case id "C" returns the explicit error value (for both the FIR and the
e-Court generator), not an exception. -/
theorem c7_case_filtered_reports (t1 t2 ag1 ag2 ag3 nowY nowIso : String)
    (ed1 ed2 ed3 : JObj)
    (n11 n12 n13 n21 n22 n23 n31 n32 n33 : String) :
    let led := addMany (mkLedger t1 t2)
      [⟨ed1, "A", ag1, n11, n12, n13⟩, ⟨ed2, "A", ag2, n21, n22, n23⟩,
       ⟨ed3, "B", ag3, n31, n32, n33⟩]
    (∃ r, generate_fir_report led "A" nowY nowIso = .ok r ∧
      r.evidence_chain =
        [firEntryOfBlock (led.chain.getD 1 emptyChainBlock),
         firEntryOfBlock (led.chain.getD 2 emptyChainBlock)] ∧
      (led.chain.getD 1 emptyChainBlock).index = 1 ∧
      (led.chain.getD 2 emptyChainBlock).index = 2) ∧
    generate_fir_report led "C" nowY nowIso =
      .error "No evidence found for case C" ∧
    generate_ecourt_compatible led "C" =
      .error "No evidence found for case C" := by
  intro led
  have hchain : led.chain =
      [initialize_genesis_block t1 t2,
       builtBlock (initialize_genesis_block t1 t2) ed1 "A" ag1 n11 n12 n13,
       builtBlock (builtBlock (initialize_genesis_block t1 t2) ed1 "A" ag1 n11 n12 n13)
         ed2 "A" ag2 n21 n22 n23,
       builtBlock (builtBlock (builtBlock (initialize_genesis_block t1 t2) ed1 "A" ag1
         n11 n12 n13) ed2 "A" ag2 n21 n22 n23) ed3 "B" ag3 n31 n32 n33] := by
    show (addMany _ _).chain = _
    rw [addMany_cons, addMany_cons, addMany_cons, addMany_nil]
    simp [addStep_eq, mkLedger, getLastD_concat, List.getLastD]
  have hfilterA : filterCase led.chain "A" =
      [led.chain.getD 1 emptyChainBlock, led.chain.getD 2 emptyChainBlock] := by
    rw [hchain]
    simp [filterCase, List.filter, pyEqStr, builtBlock_case_id, genesis_case_id,
      List.getD]
  have hfilterC : filterCase led.chain "C" = [] := by
    rw [hchain]
    simp [filterCase, List.filter, pyEqStr, builtBlock_case_id, genesis_case_id]
  refine ⟨?_, ?_, ?_⟩
  · simp only [generate_fir_report, hfilterA]
    refine ⟨_, rfl, ?_, ?_, ?_⟩
    · simp [List.map]
    · rw [hchain]; rfl
    · rw [hchain]; rfl
  · simp only [generate_fir_report, hfilterC]
    rfl
  · simp only [generate_ecourt_compatible, hfilterC]
    rfl
